import Mathlib

/-!
# Shotcraft case-based inventory engine: a shallow embedding

This file embeds the computation engine `compute_results` of `app.py`
(the only nontrivial logic of the repository) as executable Lean
definitions and proves properties of it.

Modelling conventions:
* Numbers are exact rationals `ℚ`.  A raw numeric cell is an `Option ℚ`:
  `some q` is a cell holding the finite value `q`, `none` is a cell whose
  numeric coercion fails (`pd.to_numeric(..., errors="coerce")` yields NaN,
  which `fillna(0.0)` then replaces by `0`).
* `pd.merge(..., on="Component", how="left")` is a relational left join:
  each component row is paired with every matching on-hand row (in on-hand
  table order), and with a single NaN on-hand value when no row matches.
* `sort_values("Component")` is modelled as a deterministic sort of the
  rows whose comparison key is the pair (component name, original row
  position); the name is compared as Python compares strings, i.e.
  lexicographically by code point.
* Python's `float("inf")` placed for rows with `Per_Case <= 0` is modelled
  by `Option ℚ` with `none` playing the role of `+∞` in the column
  minimum `colMin` and in `idxmin` (a finite minimum is never `+∞` because
  the branch is guarded by the candidate check of line 85).
* For the study of the coercion policy itself (claim about lines 77-78) a
  finer model `Num`/`Cell` with IEEE-style `±∞`/NaN values is defined
  further below, covering the element-wise stage (lines 69-81).
-/

namespace Shotcraft

/-- A row of the formula (bill of materials) table as fed to
`compute_results` (`app.py` lines 45-50): a component name, the raw
`Per_Case` numeric cell, and a unit-of-measure label. -/
structure Component where
  name : String
  per_case : Option ℚ
  uom : String
  deriving DecidableEq, Repr

/-- A row of the `INVENTORY` sheet (`app.py` lines 61-65): a component
name and the raw `On_Hand` numeric cell. -/
structure OnHandEntry where
  name : String
  on_hand : Option ℚ
  deriving DecidableEq, Repr

/-- One row of the joined dataframe after numeric coercion and the
element-wise computations of lines 77-81. -/
structure DFRow where
  name : String
  uom : String
  on_hand : ℚ
  per_case : ℚ
  required : ℚ
  remaining : ℚ
  deriving DecidableEq, Repr

/-- The bottleneck dictionary built at lines 89-95 of `app.py`. -/
structure Bottleneck where
  item : String
  uom : String
  on_hand : ℚ
  per_case : ℚ
  maxCasesByItem : ℚ
  deriving DecidableEq, Repr

/-- The outcome of `compute_results`: the sorted display table, the
maximum sellable cases, the bottleneck (the internal value computed at
lines 84-98; the `return` statement at line 105 drops it), and the
shortage rows. -/
structure ComputeOutput where
  display : List DFRow
  max_sellable : ℤ
  bottleneck : Option Bottleneck
  shortages : List DFRow
  deriving DecidableEq, Repr

/-- Lines 69-74 of `app.py`: copy the components table; if an on-hand
table is present, left-join it on `Component` (each component row is
repeated once per matching on-hand row, and receives a NaN on-hand cell
when no row matches); otherwise set the whole `On_Hand` column to `0.0`. -/
def mergeRows (components : List Component) (onhand_df : Option (List OnHandEntry)) :
    List (Component × Option ℚ) :=
  match onhand_df with
  | none => components.map (fun c => (c, some 0))
  | some oh =>
      components.flatMap (fun c =>
        match oh.filter (fun e => e.name == c.name) with
        | [] => [(c, none)]
        | ms => ms.map (fun e => (c, e.on_hand)))

/-- Lines 77-81 of `app.py` for one joined row: numeric coercion with
NaN replaced by `0` (`pd.to_numeric(..., errors="coerce").fillna(0.0)`),
then `Required = Per_Case * cases_sold` and
`Remaining = On_Hand - Required`. -/
def buildRow (cases_sold : ℚ) (p : Component × Option ℚ) : DFRow :=
  let per := p.1.per_case.getD 0
  let onh := p.2.getD 0
  { name := p.1.name, uom := p.1.uom, on_hand := onh, per_case := per
    required := per * cases_sold, remaining := onh - per * cases_sold }

/-- The joined and coerced dataframe with the element-wise columns
(lines 69-81 of `app.py`). -/
def computeDF (components : List Component) (onhand_df : Option (List OnHandEntry))
    (cases_sold : ℚ) : List DFRow :=
  (mergeRows components onhand_df).map (buildRow cases_sold)

/-- The `MaxCasesByItem` value of one row (line 86 of `app.py`):
`On_Hand / Per_Case` when `Per_Case > 0`, else `float("inf")`, modelled
as `none`. -/
def maxCasesByItem (r : DFRow) : Option ℚ :=
  if 0 < r.per_case then some (r.on_hand / r.per_case) else none

/-- Minimum of two extended values where `none` is `+∞`. -/
def optMin : Option ℚ → Option ℚ → Option ℚ
  | some a, some b => some (min a b)
  | some a, none => some a
  | none, b => b

/-- `Series.min` of the `MaxCasesByItem` column (line 87): the minimum of
the column where `none` plays `+∞`; `none` results only when every entry
is `none`. -/
def colMin (col : List (Option ℚ)) : Option ℚ := col.foldr optMin none

/-- Lexicographic comparison of strings as lists of characters, matching
Python string `<` (code-point lexicographic order). -/
def charListLt : List Char → List Char → Bool
  | [], [] => false
  | [], _ :: _ => true
  | _ :: _, [] => false
  | a :: as, b :: bs => if a < b then true else if b < a then false else charListLt as bs

/-- Comparison key order used to model `sort_values("Component")`:
compare by name, break exact ties by original row position, making the
modelled sort a deterministic permutation that depends only on the name
column. -/
def keyLe (a b : ℕ × String) : Bool :=
  charListLt a.2.data b.2.data || (a.2.data == b.2.data && decide (a.1 ≤ b.1))

/-- Insert an element into a list, in front of the first element it
compares `le` to. -/
def insertLe (le : α → α → Bool) (a : α) : List α → List α
  | [] => [a]
  | b :: l => if le a b then a :: b :: l else b :: insertLe le a l

/-- Insertion sort with respect to a boolean comparison. -/
def isortBy (le : α → α → Bool) : List α → List α
  | [] => []
  | a :: l => insertLe le a (isortBy le l)

/-- The part of a positioned row that the display sort compares:
original position and component name. -/
def rowKey (p : ℕ × DFRow) : ℕ × String := (p.1, p.2.name)

/-- Line 104 of `app.py`: `df.sort_values("Component")` — reorder the
rows by component name (ties keep a deterministic order depending only on
the name column, via the original positions). -/
def sortRows (rows : List DFRow) : List DFRow :=
  (isortBy (fun p q => keyLe (rowKey p) (rowKey q)) rows.enum).map Prod.snd

/-- Lines 68-105 of `app.py`: the computation engine.  The candidate
check `not candidates.empty` of line 85 is the `List.any` test; inside
that branch the column minimum is necessarily a finite value `some m`
(the inner `none` case is unreachable and returns the same result as the
empty-candidate branch).  `idxmin` (line 88) is the index of the first
column entry equal to the minimum; `math.floor` is `Rat.floor`. -/
def compute_results (components : List Component) (onhand_df : Option (List OnHandEntry))
    (cases_sold : ℚ) : ComputeOutput :=
  let df := computeDF components onhand_df cases_sold
  let col := df.map maxCasesByItem
  let mb : ℤ × Option Bottleneck :=
    if df.any (fun r => decide (0 < r.per_case)) then
      match colMin col with
      | some m =>
          (Rat.floor m,
            (df[col.findIdx (fun v => v == some m)]?).map (fun r =>
              { item := r.name, uom := r.uom, on_hand := r.on_hand,
                per_case := r.per_case, maxCasesByItem := m }))
      | none => (0, none)
    else (0, none)
  { display := sortRows df
    max_sellable := mb.1
    bottleneck := mb.2
    shortages := df.filter (fun r => decide (r.remaining < 0)) }

/-! ## The finer cell model for the numeric-coercion stage

`pd.to_numeric(..., errors="coerce")` maps a cell to an IEEE double or
NaN: strings that fail to parse become NaN, while numeric cells and
numeric-looking strings (including `"inf"`, or overflowing literals such
as `"1e999"`) keep their double value, which may be `±inf`.
`fillna(0.0)` then replaces exactly the NaN entries by `0.0`.  `Num` is
the value domain (finite values are exact rationals), `Cell` the raw cell
domain. -/

/-- An IEEE-double-like value: finite (exact rational), `+∞`, `-∞` or NaN. -/
inductive Num where
  | fin : ℚ → Num
  | pinf : Num
  | ninf : Num
  | nan : Num
  deriving DecidableEq, Repr

/-- A raw spreadsheet cell as seen by `pd.to_numeric`:
* `num v` — a cell already holding the numeric value `v` (a blank Excel
  cell arrives as `num .nan`);
* `strNum v` — a numeric-looking string parsing to the double `v`
  (e.g. `"2.5"`, or `"inf"`/`"1e999"` parsing to `+∞`);
* `strBad` — a string that fails to parse (coerced to NaN);
* `blank` — a missing value (NaN). -/
inductive Cell where
  | num : Num → Cell
  | strNum : Num → Cell
  | strBad : Cell
  | blank : Cell
  deriving DecidableEq, Repr

/-- `pd.to_numeric(c, errors="coerce")` on one cell. -/
def toNumericCoerce : Cell → Num
  | .num v => v
  | .strNum v => v
  | .strBad => .nan
  | .blank => .nan

/-- `fillna(0.0)`: replace NaN by `0`, keep every other value (in
particular `±∞` is kept). -/
def fillna0 : Num → Num
  | .nan => .fin 0
  | v => v

/-- Line 77/78 of `app.py` on one cell:
`pd.to_numeric(..., errors="coerce").fillna(0.0)`. -/
def coerceFill (c : Cell) : Num := fillna0 (toNumericCoerce c)

/-- The coerced-and-filled on-hand value of a joined row: a missing match
is a NaN filled to `0`. -/
def coerceFillOpt : Option Cell → Num
  | none => Num.fin 0
  | some c => coerceFill c

/-- IEEE multiplication of a value by a finite double (the coerced
`float(cases_sold)` of line 80 is finite). -/
def Num.mulFin : Num → ℚ → Num
  | .fin q, c => .fin (q * c)
  | .pinf, c => if 0 < c then .pinf else if c < 0 then .ninf else .nan
  | .ninf, c => if 0 < c then .ninf else if c < 0 then .pinf else .nan
  | .nan, _ => .nan

/-- IEEE subtraction. -/
def Num.sub : Num → Num → Num
  | .nan, _ => .nan
  | .fin _, .nan => .nan
  | .pinf, .nan => .nan
  | .ninf, .nan => .nan
  | .fin a, .fin b => .fin (a - b)
  | .fin _, .pinf => .ninf
  | .fin _, .ninf => .pinf
  | .pinf, .fin _ => .pinf
  | .pinf, .pinf => .nan
  | .pinf, .ninf => .pinf
  | .ninf, .fin _ => .ninf
  | .ninf, .pinf => .ninf
  | .ninf, .ninf => .nan

/-- A formula-table row with its raw `Per_Case` cell. -/
structure ComponentE where
  name : String
  per_case : Cell
  uom : String
  deriving DecidableEq, Repr

/-- An inventory-table row with its raw `On_Hand` cell. -/
structure OnHandEntryE where
  name : String
  on_hand : Cell
  deriving DecidableEq, Repr

/-- A joined row after coercion and the element-wise stage, over the
IEEE-style value domain. -/
structure DFRowE where
  name : String
  uom : String
  on_hand : Num
  per_case : Num
  required : Num
  remaining : Num
  deriving DecidableEq, Repr

/-- Lines 69-74 of `app.py` over raw cells (same join as `mergeRows`). -/
def mergeRowsE (components : List ComponentE) (onhand_df : Option (List OnHandEntryE)) :
    List (ComponentE × Option Cell) :=
  match onhand_df with
  | none => components.map (fun c => (c, some (Cell.num (.fin 0))))
  | some oh =>
      components.flatMap (fun c =>
        match oh.filter (fun e => e.name == c.name) with
        | [] => [(c, none)]
        | ms => ms.map (fun e => (c, some e.on_hand)))

/-- Lines 77-81 of `app.py` for one joined row over raw cells. -/
def buildRowE (cases_sold : ℚ) (p : ComponentE × Option Cell) : DFRowE :=
  let per := coerceFill p.1.per_case
  let onh := coerceFillOpt p.2
  { name := p.1.name, uom := p.1.uom, on_hand := onh, per_case := per
    required := per.mulFin cases_sold
    remaining := onh.sub (per.mulFin cases_sold) }

/-- The element-wise stage of `compute_results` (lines 69-81 of `app.py`)
over raw cells: join, coerce-and-fill, `Required`, `Remaining`. -/
def computeRowsE (components : List ComponentE) (onhand_df : Option (List OnHandEntryE))
    (cases_sold : ℚ) : List DFRowE :=
  (mergeRowsE components onhand_df).map (buildRowE cases_sold)

/-- Replace a cell whose numeric coercion yields NaN by a literal `0`
cell; any other cell is kept. -/
def zeroNanCell (c : Cell) : Cell :=
  match toNumericCoerce c with
  | .nan => Cell.num (.fin 0)
  | _ => c

/-- `zeroNanCell` on the `Per_Case` cell of a formula row. -/
def zeroNanComponent (c : ComponentE) : ComponentE :=
  { c with per_case := zeroNanCell c.per_case }

/-- `zeroNanCell` on the `On_Hand` cell of an inventory row. -/
def zeroNanEntry (e : OnHandEntryE) : OnHandEntryE :=
  { e with on_hand := zeroNanCell e.on_hand }

/-! ## Helper lemmas -/


theorem insertLe_perm (le : α → α → Bool) (a : α) (l : List α) :
    (insertLe le a l).Perm (a :: l) := by
  induction l with
  | nil => simp [insertLe]
  | cons b t ih =>
      cases hle : le a b with
      | true => simp [insertLe, hle]
      | false =>
          simp only [insertLe, hle, Bool.false_eq_true, if_false]
          exact (ih.cons b).trans (List.Perm.swap a b t)

theorem isortBy_perm (le : α → α → Bool) (l : List α) : (isortBy le l).Perm l := by
  induction l with
  | nil => simp [isortBy]
  | cons a t ih => exact (insertLe_perm le a (isortBy le t)).trans (ih.cons a)

theorem sortRows_perm (rows : List DFRow) : (sortRows rows).Perm rows := by
  have h2 := ((isortBy_perm (fun p q => keyLe (rowKey p) (rowKey q)) rows.enum)).map Prod.snd
  rwa [List.enum_map_snd] at h2

theorem insertLe_map_key {α κ : Type _} (f : α → κ) (kle : κ → κ → Bool) :
    ∀ (l₁ l₂ : List α) (a₁ a₂ : α), f a₁ = f a₂ → l₁.map f = l₂.map f →
      (insertLe (fun x y => kle (f x) (f y)) a₁ l₁).map f
        = (insertLe (fun x y => kle (f x) (f y)) a₂ l₂).map f := by
  intro l₁
  induction l₁ with
  | nil =>
      intro l₂ a₁ a₂ ha hl
      cases l₂ with
      | nil => simp [insertLe, ha]
      | cons b t => simp at hl
  | cons b₁ t₁ ih =>
      intro l₂ a₁ a₂ ha hl
      cases l₂ with
      | nil => simp at hl
      | cons b₂ t₂ =>
          simp only [List.map_cons, List.cons.injEq] at hl
          obtain ⟨hb, ht⟩ := hl
          simp only [insertLe, ha, hb]
          by_cases hc : kle (f a₂) (f b₂) = true
          · simp [hc, ha, hb, ht]
          · simp [hc, hb, ih t₂ a₁ a₂ ha ht]

theorem isortBy_map_key {α κ : Type _} (f : α → κ) (kle : κ → κ → Bool) :
    ∀ (l₁ l₂ : List α), l₁.map f = l₂.map f →
      (isortBy (fun x y => kle (f x) (f y)) l₁).map f
        = (isortBy (fun x y => kle (f x) (f y)) l₂).map f := by
  intro l₁
  induction l₁ with
  | nil =>
      intro l₂ hl
      cases l₂ with
      | nil => rfl
      | cons b t => simp at hl
  | cons a₁ t₁ ih =>
      intro l₂ hl
      cases l₂ with
      | nil => simp at hl
      | cons a₂ t₂ =>
          simp only [List.map_cons, List.cons.injEq] at hl
          obtain ⟨ha, ht⟩ := hl
          simp only [isortBy]
          exact insertLe_map_key f kle _ _ a₁ a₂ ha (ih t₂ ht)

theorem mem_enum_getElem? {l : List α} {i : ℕ} {a : α} (h : (i, a) ∈ l.enum) :
    l[i]? = some a := by
  have := List.mem_enumFrom h
  simp only [Nat.zero_le, Nat.zero_add, Nat.sub_zero, true_and] at this
  obtain ⟨hlt, he⟩ := this
  rw [List.getElem?_eq_getElem hlt, he]

theorem enumFrom_map_key {α κ : Type _} (g : α → κ) :
    ∀ (n : ℕ) (l₁ l₂ : List α), l₁.map g = l₂.map g →
      (List.enumFrom n l₁).map (fun p => (p.1, g p.2))
        = (List.enumFrom n l₂).map (fun p => (p.1, g p.2)) := by
  intro n l₁
  induction l₁ generalizing n with
  | nil =>
      intro l₂ hl
      cases l₂ with
      | nil => rfl
      | cons b t => simp at hl
  | cons a₁ t₁ ih =>
      intro l₂ hl
      cases l₂ with
      | nil => simp at hl
      | cons a₂ t₂ =>
          simp only [List.map_cons, List.cons.injEq] at hl
          obtain ⟨ha, ht⟩ := hl
          simp only [List.enumFrom, List.map_cons]
          rw [ha, ih (n+1) t₂ ht]

theorem enum_map_key {α κ : Type _} (g : α → κ) (l₁ l₂ : List α)
    (h : l₁.map g = l₂.map g) :
    l₁.enum.map (fun p => (p.1, g p.2)) = l₂.enum.map (fun p => (p.1, g p.2)) :=
  enumFrom_map_key g 0 l₁ l₂ h

-- merge membership lemmas
theorem mem_mergeRows_comps {comps : List Component} {oh : Option (List OnHandEntry)}
    {c : Component} {v : Option ℚ} (h : (c, v) ∈ mergeRows comps oh) : c ∈ comps := by
  cases oh with
  | none =>
      simp only [mergeRows, List.mem_map] at h
      obtain ⟨c', hc', he⟩ := h
      cases he; exact hc'
  | some l =>
      simp only [mergeRows, List.mem_flatMap] at h
      obtain ⟨c', hc', hm⟩ := h
      cases hf : l.filter (fun e => e.name == c'.name) with
      | nil => rw [hf] at hm; simp at hm; cases hm.1; exact hc'
      | cons e t =>
          rw [hf] at hm
          simp only [List.mem_map] at hm
          obtain ⟨e', _, he⟩ := hm
          cases he; exact hc'

theorem mergeRows_exists {comps : List Component} {c : Component}
    (oh : Option (List OnHandEntry)) (hc : c ∈ comps) :
    ∃ v, (c, v) ∈ mergeRows comps oh := by
  cases oh with
  | none => exact ⟨some 0, List.mem_map.2 ⟨c, hc, rfl⟩⟩
  | some l =>
      cases hf : l.filter (fun e => e.name == c.name) with
      | nil =>
          refine ⟨none, List.mem_flatMap.2 ⟨c, hc, ?_⟩⟩
          rw [hf]; simp
      | cons e t =>
          refine ⟨e.on_hand, List.mem_flatMap.2 ⟨c, hc, ?_⟩⟩
          rw [hf]
          exact List.mem_map.2 ⟨e, List.mem_cons_self e t, rfl⟩

-- colMin lemmas
theorem colMin_cons (x : Option ℚ) (t : List (Option ℚ)) :
    colMin (x :: t) = optMin x (colMin t) := rfl

theorem colMin_eq_none_iff {col : List (Option ℚ)} :
    colMin col = none ↔ ∀ x ∈ col, x = none := by
  induction col with
  | nil => simp [colMin]
  | cons x t ih =>
      rw [colMin_cons]
      constructor
      · intro h
        cases x with
        | some a => cases hmt : colMin t <;> rw [hmt] at h <;> simp [optMin] at h
        | none =>
            simp only [optMin] at h
            intro y hy
            rcases List.mem_cons.1 hy with hy | hy
            · exact hy
            · exact ih.1 h y hy
      · intro h
        have hx : x = none := h x (List.mem_cons_self x t)
        subst hx
        simp only [optMin]
        exact ih.2 (fun y hy => h y (List.mem_cons_of_mem _ hy))

theorem colMin_le {col : List (Option ℚ)} {m : ℚ} (h : colMin col = some m) :
    ∀ v : ℚ, some v ∈ col → m ≤ v := by
  induction col generalizing m with
  | nil => simp [colMin] at h
  | cons x t ih =>
      intro v hv
      rw [colMin_cons] at h
      rcases List.mem_cons.1 hv with hx | ht
      · subst hx
        cases hmt : colMin t with
        | none =>
            rw [hmt] at h
            simp only [optMin, Option.some.injEq] at h
            subst h; exact le_refl _
        | some mt =>
            rw [hmt] at h
            simp only [optMin, Option.some.injEq] at h
            subst h
            exact min_le_left v mt
      · cases x with
        | some a =>
            cases hmt : colMin t with
            | none =>
                have : some v = none := (colMin_eq_none_iff.1 hmt) _ ht
                simp at this
            | some mt =>
                rw [hmt] at h
                simp only [optMin, Option.some.injEq] at h
                subst h
                exact le_trans (min_le_right a mt) (ih hmt v ht)
        | none =>
            simp only [optMin] at h
            exact ih h v ht

theorem mem_colMin {col : List (Option ℚ)} {m : ℚ} (h : colMin col = some m) :
    some m ∈ col := by
  induction col generalizing m with
  | nil => simp [colMin] at h
  | cons x t ih =>
      rw [colMin_cons] at h
      cases x with
      | none =>
          simp only [optMin] at h
          exact List.mem_cons_of_mem _ (ih h)
      | some a =>
          cases hmt : colMin t with
          | none =>
              rw [hmt] at h; simp only [optMin, Option.some.injEq] at h
              subst h
              exact List.mem_cons_self _ _
          | some mt =>
              rw [hmt] at h; simp only [optMin, Option.some.injEq] at h
              subst h
              rcases le_total a mt with hle | hle
              · rw [min_eq_left hle]
                exact List.mem_cons_self _ _
              · rw [min_eq_right hle]
                exact List.mem_cons_of_mem _ (ih hmt)

theorem colMin_isSome_of_mem {col : List (Option ℚ)} {v : ℚ} (h : some v ∈ col) :
    ∃ m, colMin col = some m := by
  cases hc : colMin col with
  | some m => exact ⟨m, rfl⟩
  | none =>
      have := colMin_eq_none_iff.1 hc _ h
      simp at this



theorem compute_results_display (comps : List Component) (oh : Option (List OnHandEntry))
    (n : ℚ) : (compute_results comps oh n).display = sortRows (computeDF comps oh n) := rfl

theorem compute_results_shortages (comps : List Component) (oh : Option (List OnHandEntry))
    (n : ℚ) : (compute_results comps oh n).shortages
      = (computeDF comps oh n).filter (fun r => decide (r.remaining < 0)) := rfl

theorem compute_results_pos {comps : List Component} {oh : Option (List OnHandEntry)}
    {n : ℚ} {m : ℚ}
    (hany : (computeDF comps oh n).any (fun r => decide (0 < r.per_case)) = true)
    (hmin : colMin ((computeDF comps oh n).map maxCasesByItem) = some m) :
    (compute_results comps oh n).max_sellable = Rat.floor m ∧
    (compute_results comps oh n).bottleneck
      = ((computeDF comps oh n)[((computeDF comps oh n).map maxCasesByItem).findIdx
            (fun v => v == some m)]?).map (fun r =>
          { item := r.name, uom := r.uom, on_hand := r.on_hand,
            per_case := r.per_case, maxCasesByItem := m }) := by
  constructor <;> simp only [compute_results, hany, hmin, if_true]

theorem compute_results_neg {comps : List Component} {oh : Option (List OnHandEntry)}
    {n : ℚ}
    (hany : (computeDF comps oh n).any (fun r => decide (0 < r.per_case)) = false) :
    (compute_results comps oh n).max_sellable = 0 ∧
    (compute_results comps oh n).bottleneck = none := by
  constructor <;> simp only [compute_results, hany, Bool.false_eq_true, if_false]

theorem mem_computeDF {comps : List Component} {oh : Option (List OnHandEntry)} {n : ℚ}
    {r : DFRow} :
    r ∈ computeDF comps oh n ↔ ∃ p ∈ mergeRows comps oh, buildRow n p = r := by
  simp [computeDF, List.mem_map]

theorem computeDF_rate {comps : List Component} {oh : Option (List OnHandEntry)} {n : ℚ}
    {r : DFRow} (h : r ∈ computeDF comps oh n) :
    ∃ c ∈ comps, r.per_case = c.per_case.getD 0 := by
  obtain ⟨⟨c, v⟩, hp, he⟩ := mem_computeDF.1 h
  exact ⟨c, mem_mergeRows_comps hp, by rw [← he]; rfl⟩

theorem computeDF_exists_rate {comps : List Component} {oh : Option (List OnHandEntry)}
    {n : ℚ} {c : Component} (hc : c ∈ comps) :
    ∃ r ∈ computeDF comps oh n, r.per_case = c.per_case.getD 0 := by
  obtain ⟨v, hv⟩ := mergeRows_exists oh hc
  exact ⟨buildRow n (c, v), mem_computeDF.2 ⟨(c, v), hv, rfl⟩, rfl⟩

theorem any_pos_of_exists {comps : List Component} {oh : Option (List OnHandEntry)} {n : ℚ}
    (h : ∃ c ∈ comps, 0 < c.per_case.getD 0) :
    (computeDF comps oh n).any (fun r => decide (0 < r.per_case)) = true := by
  obtain ⟨c, hc, hpos⟩ := h
  obtain ⟨r, hr, hrate⟩ := @computeDF_exists_rate comps oh n c hc
  exact List.any_eq_true.2 ⟨r, hr, by rw [hrate]; exact decide_eq_true hpos⟩

theorem colMin_some_of_pos {comps : List Component} {oh : Option (List OnHandEntry)} {n : ℚ}
    (h : ∃ r ∈ computeDF comps oh n, 0 < r.per_case) :
    ∃ m, colMin ((computeDF comps oh n).map maxCasesByItem) = some m := by
  obtain ⟨r, hr, hpos⟩ := h
  have hmm : some (r.on_hand / r.per_case) ∈ (computeDF comps oh n).map maxCasesByItem :=
    List.mem_map.2 ⟨r, hr, by simp [maxCasesByItem, hpos]⟩
  exact colMin_isSome_of_mem hmm

/-- Claim C9: for an empty components table and any on-hand table and
order size, `compute_results` returns an empty result row set,
`max_sellable_cases = 0`, no bottleneck, and an empty shortages set. -/
theorem C9_empty_components (onhand_df : Option (List OnHandEntry)) (cases_sold : ℚ) :
    compute_results [] onhand_df cases_sold = ⟨[], 0, none, []⟩ := by
  cases onhand_df <;> rfl

/-- Claim C2 (amended): at `order_size = 0` every output row has
`required = 0` and `remaining = on_hand`; the shortages set is empty
provided every row's (joined and coerced) on-hand value is non-negative
(a negative on-hand value is itself a shortage at order size 0). -/
theorem C2_amended_zero_order (comps : List Component) (oh : Option (List OnHandEntry)) :
    (∀ r ∈ (compute_results comps oh 0).display, r.required = 0 ∧ r.remaining = r.on_hand)
    ∧ ((∀ r ∈ (compute_results comps oh 0).display, 0 ≤ r.on_hand) →
        (compute_results comps oh 0).shortages = []) := by
  have hperm := sortRows_perm (computeDF comps oh 0)
  constructor
  · intro r hr
    rw [compute_results_display] at hr
    have hr' : r ∈ computeDF comps oh 0 := hperm.mem_iff.1 hr
    obtain ⟨p, _, he⟩ := mem_computeDF.1 hr'
    subst he
    simp [buildRow]
  · intro hge
    rw [compute_results_shortages]
    apply List.filter_eq_nil_iff.2
    intro r hr
    have hrd : r ∈ (compute_results comps oh 0).display := by
      rw [compute_results_display]
      exact hperm.mem_iff.2 hr
    have h0 : 0 ≤ r.on_hand := hge r hrd
    obtain ⟨p, _, he⟩ := mem_computeDF.1 hr
    have hrem : r.remaining = r.on_hand := by subst he; simp [buildRow]
    simp only [decide_eq_true_eq, not_lt]
    rw [hrem]
    exact h0

/-- Witness for C2 at a concrete input. -/
theorem C2_w : (compute_results [⟨"A", some 1, ""⟩] none 0).shortages = [] :=
  (C2_amended_zero_order [⟨"A", some 1, ""⟩] none).2 (by
    intro r hr
    simp [compute_results_display, sortRows, isortBy, insertLe, computeDF, mergeRows,
      buildRow, List.enum, List.enumFrom] at hr
    rw [hr])



/-- Counterexample to claim C1 as stated: with a negative on-hand
quantity the code returns a negative `max_sellable_cases` — the clamp to
`0` claimed by the spec does not exist in the code. -/
theorem C1_counterexample_negative_max_sellable :
    (compute_results [⟨"A", some 1, ""⟩] (some [⟨"A", some (-1)⟩]) 0).max_sellable = -1
    ∧ ¬ (0 : ℤ) ≤ -1 := by
  constructor
  · simp [compute_results, computeDF, mergeRows, buildRow, maxCasesByItem, colMin, optMin,
      List.filter, List.flatMap, Rat.floor]
  · decide

/-- Claim C1 (amended): when at least one component has a positive
(coerced) per-case rate, `max_sellable_cases` is the floor of the minimum
of `on_hand / per_case_rate` over the joined rows with positive rate —
with no clamping at `0`, so it is negative when that minimum is. -/
theorem C1_amended_floor_min (comps : List Component) (oh : Option (List OnHandEntry))
    (n : ℚ) (hpos : ∃ c ∈ comps, 0 < c.per_case.getD 0) :
    ∃ m : ℚ,
      (compute_results comps oh n).max_sellable = Rat.floor m ∧
      (∀ r ∈ computeDF comps oh n, 0 < r.per_case → m ≤ r.on_hand / r.per_case) ∧
      (∃ r ∈ computeDF comps oh n, 0 < r.per_case ∧ m = r.on_hand / r.per_case) := by
  have hany := @any_pos_of_exists comps oh n hpos
  obtain ⟨c, hc, hcpos⟩ := hpos
  obtain ⟨r0, hr0, hrate⟩ := @computeDF_exists_rate comps oh n c hc
  obtain ⟨m, hm⟩ := colMin_some_of_pos ⟨r0, hr0, hrate ▸ hcpos⟩
  refine ⟨m, (compute_results_pos hany hm).1, ?_, ?_⟩
  · intro r hr hpos'
    exact colMin_le hm _ (List.mem_map.2 ⟨r, hr, by simp [maxCasesByItem, hpos']⟩)
  · obtain ⟨r, hr, hmr⟩ := List.mem_map.1 (mem_colMin hm)
    by_cases hp : 0 < r.per_case
    · refine ⟨r, hr, hp, ?_⟩
      simp only [maxCasesByItem, hp, if_true, Option.some.injEq] at hmr
      exact hmr.symm
    · simp [maxCasesByItem, hp] at hmr

/-- Witness for C1 (amended) at a concrete input. -/
theorem C1_w :
    ∃ m : ℚ,
      (compute_results [⟨"A", some 2, ""⟩] (some [⟨"A", some 10⟩]) 0).max_sellable
        = Rat.floor m ∧
      (∀ r ∈ computeDF [⟨"A", some 2, ""⟩] (some [⟨"A", some 10⟩]) 0,
        0 < r.per_case → m ≤ r.on_hand / r.per_case) ∧
      (∃ r ∈ computeDF [⟨"A", some 2, ""⟩] (some [⟨"A", some 10⟩]) 0,
        0 < r.per_case ∧ m = r.on_hand / r.per_case) :=
  C1_amended_floor_min _ _ _ (by decide)

/-- Counterexample to claim C2 as stated: at order size 0 a negative
on-hand quantity yields a negative `remaining`, so the shortages set is
not empty. -/
theorem C2_counterexample_negative_on_hand :
    (compute_results [⟨"A", some 1, ""⟩] (some [⟨"A", some (-1)⟩]) 0).shortages
      = [⟨"A", "", -1, 1, 0, -1⟩]
    ∧ ([⟨"A", "", -1, 1, 0, -1⟩] : List DFRow) ≠ [] := by
  constructor
  · simp [compute_results_shortages, computeDF, mergeRows, buildRow, List.filter]
  · simp

/-- The bottleneck produced in the positive-candidate branch: it is built
from the first joined row whose `MaxCasesByItem` equals the column
minimum. -/
theorem bottleneck_spec {comps : List Component} {oh : Option (List OnHandEntry)}
    {n : ℚ} {m : ℚ}
    (hany : (computeDF comps oh n).any (fun r => decide (0 < r.per_case)) = true)
    (hmin : colMin ((computeDF comps oh n).map maxCasesByItem) = some m) :
    ∃ i r, (computeDF comps oh n)[i]? = some r ∧
      maxCasesByItem r = some m ∧
      (compute_results comps oh n).bottleneck
        = some ⟨r.name, r.uom, r.on_hand, r.per_case, m⟩ ∧
      ∀ (j : ℕ) (s : DFRow), j < i → (computeDF comps oh n)[j]? = some s → maxCasesByItem s ≠ some m := by
  set df := computeDF comps oh n with hdf
  set col := df.map maxCasesByItem with hcol
  set i := col.findIdx (fun v => v == some m) with hi
  have hmem : some m ∈ col := mem_colMin hmin
  have hlt : i < col.length :=
    List.findIdx_lt_length_of_exists ⟨some m, hmem, by simp⟩
  have hltdf : i < df.length := by rw [hcol, List.length_map] at hlt; exact hlt
  refine ⟨i, df[i], List.getElem?_eq_getElem hltdf, ?_, ?_, ?_⟩
  · have hpi := @List.findIdx_getElem _ _ _ hlt
    have hcoli : col[i] = maxCasesByItem df[i] := by
      simp [hcol]
    rw [hcoli] at hpi
    exact beq_iff_eq.1 hpi
  · have hbot := (compute_results_pos hany hmin).2
    rw [hbot, List.getElem?_eq_getElem hltdf]
    rfl
  · intro j s hj hs hcontra
    have hjlt : j < col.length := lt_trans hj hlt
    have hnp := @List.not_of_lt_findIdx _ (fun v => v == some m) col j hj
    have hjdf : j < df.length := by rw [hcol, List.length_map] at hjlt; exact hjlt
    have hsj : df[j] = s := by
      have hg := List.getElem?_eq_getElem hjdf
      rw [hs] at hg
      exact Option.some_inj.1 hg.symm
    have hcolj : col[j] = maxCasesByItem df[j] := by simp [hcol]
    rw [hcolj, hsj, hcontra] at hnp
    simp at hnp

/-- Claim C6: if no component has a positive (coerced) per-case rate,
`max_sellable_cases = 0` and there is no bottleneck; moreover any
produced bottleneck has a positive rate, and a row with non-positive rate
contributes `+∞` (`none`) to the `MaxCasesByItem` minimization, never a
finite ratio. -/
theorem C6_zero_rate_terminal (comps : List Component) (oh : Option (List OnHandEntry))
    (n : ℚ) :
    ((∀ c ∈ comps, ¬ 0 < c.per_case.getD 0) →
       (compute_results comps oh n).max_sellable = 0 ∧
       (compute_results comps oh n).bottleneck = none)
    ∧ (∀ b, (compute_results comps oh n).bottleneck = some b → 0 < b.per_case)
    ∧ (∀ r ∈ computeDF comps oh n, ¬ 0 < r.per_case → maxCasesByItem r = none) := by
  refine ⟨?_, ?_, ?_⟩
  · intro h
    apply compute_results_neg
    rw [List.any_eq_false]
    intro r hr
    obtain ⟨c, hc, hrate⟩ := computeDF_rate hr
    simp only [decide_eq_true_eq]
    rw [hrate]
    exact h c hc
  · intro b hb
    cases hany : (computeDF comps oh n).any (fun r => decide (0 < r.per_case)) with
    | false => rw [(compute_results_neg hany).2] at hb; cases hb
    | true =>
        cases hmin : colMin ((computeDF comps oh n).map maxCasesByItem) with
        | none =>
            have hnone : (compute_results comps oh n).bottleneck = none := by
              simp only [compute_results, hany, hmin, if_true]
            rw [hnone] at hb; cases hb
        | some m =>
            obtain ⟨i, r, _, hmax, hbot, _⟩ := bottleneck_spec hany hmin
            rw [hbot] at hb
            have hbr : b = ⟨r.name, r.uom, r.on_hand, r.per_case, m⟩ :=
              (Option.some_inj.1 hb).symm
            by_cases hp : 0 < r.per_case
            · rw [hbr]; exact hp
            · simp [maxCasesByItem, hp] at hmax
  · intro r _ hp
    simp [maxCasesByItem, hp]

/-- Witness for C6 at a concrete input. -/
theorem C6_w :
    (compute_results [⟨"A", some 0, ""⟩] none 5).max_sellable = 0 ∧
    (compute_results [⟨"A", some 0, ""⟩] none 5).bottleneck = none :=
  (C6_zero_rate_terminal [⟨"A", some 0, ""⟩] none 5).1 (by decide)

/-- Claim C7: with at least one positive-rate component, the bottleneck
is built from a joined row whose ratio `m` is minimal among all
positive-rate rows, and no earlier row achieves `m` (ties are broken by
the first position in input order). -/
theorem C7_bottleneck_first_min (comps : List Component) (oh : Option (List OnHandEntry))
    (n : ℚ) (hpos : ∃ c ∈ comps, 0 < c.per_case.getD 0) :
    ∃ i r m,
      (computeDF comps oh n)[i]? = some r ∧
      maxCasesByItem r = some m ∧
      (compute_results comps oh n).bottleneck
        = some ⟨r.name, r.uom, r.on_hand, r.per_case, m⟩ ∧
      (∀ s ∈ computeDF comps oh n, ∀ v, maxCasesByItem s = some v → m ≤ v) ∧
      (∀ (j : ℕ) (s : DFRow), j < i → (computeDF comps oh n)[j]? = some s → maxCasesByItem s ≠ some m) := by
  have hany := @any_pos_of_exists comps oh n hpos
  obtain ⟨c, hc, hcpos⟩ := hpos
  obtain ⟨r0, hr0, hrate⟩ := @computeDF_exists_rate comps oh n c hc
  obtain ⟨m, hm⟩ := colMin_some_of_pos ⟨r0, hr0, hrate ▸ hcpos⟩
  obtain ⟨i, r, h1, h2, h3, h4⟩ := bottleneck_spec hany hm
  exact ⟨i, r, m, h1, h2, h3,
    fun s hs v hv => colMin_le hm v (List.mem_map.2 ⟨s, hs, hv⟩), h4⟩

/-- Witness for C7 at a concrete input. -/
theorem C7_w :
    ∃ i r m,
      (computeDF [⟨"X", some 2, ""⟩] none 0)[i]? = some r ∧
      maxCasesByItem r = some m ∧
      (compute_results [⟨"X", some 2, ""⟩] none 0).bottleneck
        = some ⟨r.name, r.uom, r.on_hand, r.per_case, m⟩ ∧
      (∀ s ∈ computeDF [⟨"X", some 2, ""⟩] none 0, ∀ v,
        maxCasesByItem s = some v → m ≤ v) ∧
      (∀ (j : ℕ) (s : DFRow), j < i → (computeDF [⟨"X", some 2, ""⟩] none 0)[j]? = some s →
        maxCasesByItem s ≠ some m) :=
  C7_bottleneck_first_min _ _ _ (by decide)

/-- Claim C10: the ratio `On_Hand / Per_Case` is produced exactly for
rows with `Per_Case > 0` (all others are assigned `+∞`), and there the
divisor is nonzero and the division exact, so no division by zero occurs. -/
theorem C10_guarded_division (comps : List Component) (oh : Option (List OnHandEntry))
    (n : ℚ) :
    ∀ r ∈ computeDF comps oh n,
      (0 < r.per_case →
        maxCasesByItem r = some (r.on_hand / r.per_case) ∧
        r.per_case ≠ 0 ∧ (r.on_hand / r.per_case) * r.per_case = r.on_hand)
      ∧ (¬ 0 < r.per_case → maxCasesByItem r = none) := by
  intro r _
  constructor
  · intro hp
    exact ⟨by simp [maxCasesByItem, hp], ne_of_gt hp,
      div_mul_cancel₀ _ (ne_of_gt hp)⟩
  · intro hp
    simp [maxCasesByItem, hp]

/-- Witness for C10 at a concrete input. -/
theorem C10_w :
    (0 < (⟨"A", "", 0, 2, 0, 0⟩ : DFRow).per_case →
      maxCasesByItem ⟨"A", "", 0, 2, 0, 0⟩
        = some ((⟨"A", "", 0, 2, 0, 0⟩ : DFRow).on_hand
            / (⟨"A", "", 0, 2, 0, 0⟩ : DFRow).per_case) ∧
      (⟨"A", "", 0, 2, 0, 0⟩ : DFRow).per_case ≠ 0 ∧
      ((⟨"A", "", 0, 2, 0, 0⟩ : DFRow).on_hand / (⟨"A", "", 0, 2, 0, 0⟩ : DFRow).per_case)
          * (⟨"A", "", 0, 2, 0, 0⟩ : DFRow).per_case
        = (⟨"A", "", 0, 2, 0, 0⟩ : DFRow).on_hand)
    ∧ (¬ 0 < (⟨"A", "", 0, 2, 0, 0⟩ : DFRow).per_case →
        maxCasesByItem ⟨"A", "", 0, 2, 0, 0⟩ = none) :=
  C10_guarded_division [⟨"A", some 2, ""⟩] none 0 ⟨"A", "", 0, 2, 0, 0⟩
    (by simp [computeDF, mergeRows, buildRow])



theorem mem_of_getElem?_some {α : Type _} {l : List α} {i : ℕ} {a : α}
    (h : l[i]? = some a) : a ∈ l := by
  obtain ⟨hlt, he⟩ := List.getElem?_eq_some_iff.1 h
  exact he ▸ List.getElem_mem hlt

theorem mem_enum_getElem?_pair {α : Type _} {l : List α} {p : ℕ × α}
    (h : p ∈ l.enum) : l[p.1]? = some p.2 := by
  obtain ⟨i, a⟩ := p
  exact mem_enum_getElem? h

theorem computeDF_map_name (comps : List Component) (oh : Option (List OnHandEntry)) (n : ℚ) :
    (computeDF comps oh n).map DFRow.name = (mergeRows comps oh).map (fun p => p.1.name) := by
  simp only [computeDF, List.map_map]
  rfl

/-- Claim C8: for fixed tables and order sizes `n₁ < n₂`, every display
row's `remaining` under `n₂` is at most its `remaining` under `n₁`
(rows are matched by position, the display sort applying the same
name-determined permutation to both outputs); it requires the data-model
invariant that per-case rates are non-negative. -/
theorem C8_remaining_antitone (comps : List Component) (oh : Option (List OnHandEntry))
    (n₁ n₂ : ℚ) (hrate : ∀ c ∈ comps, 0 ≤ c.per_case.getD 0) (hn : n₁ < n₂) :
    ∀ (k : ℕ) (r₁ r₂ : DFRow),
      (compute_results comps oh n₁).display[k]? = some r₁ →
      (compute_results comps oh n₂).display[k]? = some r₂ →
      r₂.remaining ≤ r₁.remaining := by
  intro k r₁ r₂ h1 h2
  rw [compute_results_display] at h1 h2
  have hnames : (computeDF comps oh n₁).map DFRow.name
      = (computeDF comps oh n₂).map DFRow.name := by
    rw [computeDF_map_name, computeDF_map_name]
  have hkeys :
      (isortBy (fun p q => keyLe (rowKey p) (rowKey q)) (computeDF comps oh n₁).enum).map rowKey
      = (isortBy (fun p q => keyLe (rowKey p) (rowKey q)) (computeDF comps oh n₂).enum).map rowKey :=
    isortBy_map_key rowKey keyLe _ _
      (enum_map_key DFRow.name (computeDF comps oh n₁) (computeDF comps oh n₂) hnames)
  -- extract the sorted pairs at position k
  rw [sortRows, List.getElem?_map] at h1 h2
  obtain ⟨p₁, hp₁, hp₁r⟩ := Option.map_eq_some'.1 h1
  obtain ⟨p₂, hp₂, hp₂r⟩ := Option.map_eq_some'.1 h2
  -- equal keys at position k
  have hk : rowKey p₁ = rowKey p₂ := by
    have e1 := List.getElem?_map rowKey
      (isortBy (fun p q => keyLe (rowKey p) (rowKey q)) (computeDF comps oh n₁).enum) k
    have e2 := List.getElem?_map rowKey
      (isortBy (fun p q => keyLe (rowKey p) (rowKey q)) (computeDF comps oh n₂).enum) k
    rw [hkeys, e2, hp₂] at e1
    rw [hp₁] at e1
    exact (Option.some_inj.1 e1).symm
  have hidx : p₁.1 = p₂.1 := by
    have h := hk
    simp only [rowKey, Prod.mk.injEq] at h
    exact h.1
  -- back to the unsorted dataframes
  have hmem₁ : p₁ ∈ (computeDF comps oh n₁).enum :=
    ((isortBy_perm _ _).mem_iff).1 (mem_of_getElem?_some hp₁)
  have hmem₂ : p₂ ∈ (computeDF comps oh n₂).enum :=
    ((isortBy_perm _ _).mem_iff).1 (mem_of_getElem?_some hp₂)
  have hdf₁ : (computeDF comps oh n₁)[p₁.1]? = some p₁.2 :=
    mem_enum_getElem?_pair hmem₁
  have hdf₂ : (computeDF comps oh n₂)[p₁.1]? = some p₂.2 := by
    rw [hidx]
    exact mem_enum_getElem?_pair hmem₂
  -- the two rows are built from the same merge pair
  rw [computeDF, List.getElem?_map] at hdf₁ hdf₂
  obtain ⟨q₁, hq₁, hq₁r⟩ := Option.map_eq_some'.1 hdf₁
  obtain ⟨q₂, hq₂, hq₂r⟩ := Option.map_eq_some'.1 hdf₂
  have hq : q₁ = q₂ := by rw [hq₁] at hq₂; exact Option.some_inj.1 hq₂
  subst hq
  -- non-negative rate
  obtain ⟨c, v⟩ := q₁
  have hc : c ∈ comps := mem_mergeRows_comps (mem_of_getElem?_some hq₁)
  have h0 : 0 ≤ c.per_case.getD 0 := hrate c hc
  -- conclude
  rw [← hp₁r, ← hp₂r, ← hq₁r, ← hq₂r]
  simp only [buildRow]
  have : c.per_case.getD 0 * n₁ ≤ c.per_case.getD 0 * n₂ :=
    mul_le_mul_of_nonneg_left (le_of_lt hn) h0
  exact sub_le_sub_left this _



/-- Witness for C8 at a concrete input. -/
theorem C8_w :
    (⟨"A", "", 0, 1, 1, -1⟩ : DFRow).remaining ≤ (⟨"A", "", 0, 1, 0, 0⟩ : DFRow).remaining :=
  C8_remaining_antitone [⟨"A", some 1, ""⟩] (some []) 0 1 (by decide) (by decide) 0
    ⟨"A", "", 0, 1, 0, 0⟩ ⟨"A", "", 0, 1, 1, -1⟩
    (by simp [compute_results_display, sortRows, isortBy, insertLe, computeDF, mergeRows,
      buildRow, List.enum, List.enumFrom])
    (by simp [compute_results_display, sortRows, isortBy, insertLe, computeDF, mergeRows,
      buildRow, List.enum, List.enumFrom])



theorem computeDF_names {comps : List Component} {oh : Option (List OnHandEntry)} {n : ℚ}
    {r : DFRow} (h : r ∈ computeDF comps oh n) :
    r.name ∈ comps.map Component.name := by
  obtain ⟨⟨c, v⟩, hp, he⟩ := mem_computeDF.1 h
  exact List.mem_map.2 ⟨c, mem_mergeRows_comps hp, by rw [← he]; rfl⟩

theorem computeDF_cons (c₀ : Component) (rest : List Component) (oh : List OnHandEntry)
    (n : ℚ) :
    computeDF (c₀ :: rest) (some oh) n
      = (if oh.filter (fun e => e.name == c₀.name) = []
         then [buildRow n (c₀, none)]
         else (oh.filter (fun e => e.name == c₀.name)).map
                (fun e => buildRow n (c₀, e.on_hand)))
        ++ computeDF rest (some oh) n := by
  simp only [computeDF, mergeRows, List.flatMap_cons, List.map_append]
  congr 1
  cases hf : oh.filter (fun e => e.name == c₀.name) with
  | nil => simp
  | cons e t => simp [List.map_map]

theorem filter_name_eq_singleton {oh : List OnHandEntry} {nm : String} {e : OnHandEntry}
    (hH : (oh.map OnHandEntry.name).Nodup)
    (hfind : oh.find? (fun x => x.name == nm) = some e) :
    oh.filter (fun x => x.name == nm) = [e] := by
  induction oh with
  | nil => simp at hfind
  | cons e₀ t ih =>
      rw [List.map_cons, List.nodup_cons] at hH
      cases hp : (e₀.name == nm) with
      | true =>
          simp only [List.find?_cons, hp] at hfind
          have he : e₀ = e := Option.some_inj.1 hfind
          subst he
          simp only [List.filter_cons, hp, if_true]
          have ht : t.filter (fun x => x.name == nm) = [] := by
            apply List.filter_eq_nil_iff.2
            intro x hx hcx
            apply hH.1
            have hxnm : x.name = nm := beq_iff_eq.1 hcx
            have he0 : e₀.name = nm := beq_iff_eq.1 hp
            rw [he0, ← hxnm]
            exact List.mem_map.2 ⟨x, hx, rfl⟩
          rw [ht]
      | false =>
          simp only [List.find?_cons, hp] at hfind
          simp only [List.filter_cons, hp, Bool.false_eq_true, if_false]
          exact ih hH.2 hfind

theorem computeDF_filter_name (comps : List Component) (oh : List OnHandEntry) (n : ℚ)
    {c : Component} (hC : (comps.map Component.name).Nodup) (hc : c ∈ comps) :
    (computeDF comps (some oh) n).filter (fun r => r.name == c.name)
      = if oh.filter (fun e => e.name == c.name) = []
        then [buildRow n (c, none)]
        else (oh.filter (fun e => e.name == c.name)).map
               (fun e => buildRow n (c, e.on_hand)) := by
  induction comps with
  | nil => cases hc
  | cons c₀ rest ih =>
      rw [List.map_cons, List.nodup_cons] at hC
      rw [computeDF_cons, List.filter_append]
      rcases List.mem_cons.1 hc with hceq | hcrest
      · subst hceq
        have h2 : (computeDF rest (some oh) n).filter (fun r => r.name == c.name) = [] := by
          apply List.filter_eq_nil_iff.2
          intro r hr hcr
          apply hC.1
          have : r.name = c.name := beq_iff_eq.1 hcr
          rw [← this]
          exact computeDF_names hr
        rw [h2, List.append_nil]
        by_cases hf : oh.filter (fun e => e.name == c.name) = []
        · rw [if_pos hf]
          apply List.filter_eq_self.2
          intro r hr
          rcases List.mem_singleton.1 hr with he
          rw [he]
          simp [buildRow]
        · rw [if_neg hf]
          apply List.filter_eq_self.2
          intro r hr
          obtain ⟨e, _, he⟩ := List.mem_map.1 hr
          rw [← he]
          simp [buildRow]
      · have hne : c₀.name ≠ c.name := by
          intro heq
          apply hC.1
          rw [heq]
          exact List.mem_map.2 ⟨c, hcrest, rfl⟩
        have h1 :
            (if oh.filter (fun e => e.name == c₀.name) = []
             then [buildRow n (c₀, none)]
             else (oh.filter (fun e => e.name == c₀.name)).map
                    (fun e => buildRow n (c₀, e.on_hand))).filter
              (fun r => r.name == c.name) = [] := by
          apply List.filter_eq_nil_iff.2
          intro r hr hcr
          apply hne
          have hrn : r.name = c.name := beq_iff_eq.1 hcr
          rw [← hrn]
          by_cases hf : oh.filter (fun e => e.name == c₀.name) = []
          · rw [if_pos hf] at hr
            rcases List.mem_singleton.1 hr with he
            rw [he]; rfl
          · rw [if_neg hf] at hr
            obtain ⟨e, _, he⟩ := List.mem_map.1 hr
            rw [← he]; rfl
        rw [h1, List.nil_append]
        exact ih hC.2 hcrest



/-- Counterexample to claim C3 as stated: duplicate names in the on-hand
table make the left merge emit one row per duplicate, so the single
component "A" appears twice in the output. -/
theorem C3_counterexample_duplicate_onhand :
    ((compute_results [⟨"A", some 1, ""⟩] (some [⟨"A", some 1⟩, ⟨"A", some 2⟩]) 0).display.filter
        (fun r => r.name == "A")).length = 2 ∧ (2 : ℕ) ≠ 1 := by
  constructor
  · simp [compute_results_display, sortRows, isortBy, insertLe, keyLe, rowKey, charListLt,
      computeDF, mergeRows, buildRow, List.enum, List.enumFrom, List.filter, List.flatMap]
  · decide

/-- Claim C3 (amended): provided component names are pairwise distinct
and the on-hand table has no duplicate names, every component yields
exactly one output row, whose on-hand value is the looked-up quantity,
`0` when the name is absent (or its cell unparseable). -/
theorem C3_amended_join_completeness (comps : List Component) (oh : List OnHandEntry)
    (n : ℚ) (hC : (comps.map Component.name).Nodup)
    (hH : (oh.map OnHandEntry.name).Nodup) :
    ∀ c ∈ comps,
      ((compute_results comps (some oh) n).display.filter
          (fun r => r.name == c.name)).map DFRow.on_hand
        = [((oh.find? (fun e => e.name == c.name)).bind OnHandEntry.on_hand).getD 0] := by
  intro c hc
  have hperm := (sortRows_perm (computeDF comps (some oh) n)).filter
      (fun r => r.name == c.name)
  have hdf := computeDF_filter_name comps oh n hC hc
  rw [compute_results_display]
  cases hfind : oh.find? (fun e => e.name == c.name) with
  | none =>
      have hfe : oh.filter (fun e => e.name == c.name) = [] := by
        apply List.filter_eq_nil_iff.2
        intro e he hp
        exact (List.find?_eq_none.1 hfind e he) hp
      rw [hfe, if_pos rfl] at hdf
      have hdisp : (sortRows (computeDF comps (some oh) n)).filter
          (fun r => r.name == c.name) = [buildRow n (c, none)] :=
        List.perm_singleton.1 (hdf ▸ hperm)
      rw [hdisp]
      simp [buildRow]
  | some e =>
      have hfe := filter_name_eq_singleton hH hfind
      rw [hfe, if_neg (by simp)] at hdf
      simp only [List.map_cons, List.map_nil] at hdf
      have hdisp : (sortRows (computeDF comps (some oh) n)).filter
          (fun r => r.name == c.name) = [buildRow n (c, e.on_hand)] :=
        List.perm_singleton.1 (hdf ▸ hperm)
      rw [hdisp]
      simp [buildRow]

/-- Witness for C3 (amended) at a concrete input. -/
theorem C3_w :
    ((compute_results [⟨"A", some 1, ""⟩] (some [⟨"A", some 7⟩]) 0).display.filter
        (fun r => r.name == (⟨"A", some 1, ""⟩ : Component).name)).map DFRow.on_hand
      = [((([⟨"A", some 7⟩] : List OnHandEntry).find?
            (fun e => e.name == (⟨"A", some 1, ""⟩ : Component).name)).bind
            OnHandEntry.on_hand).getD 0] :=
  C3_amended_join_completeness _ _ 0 (by decide) (by decide) _ (by decide)

/-- Counterexample to claim C4 as stated: with duplicate on-hand entries
for "A" (quantities 1 then 2) the output has two rows for "A", one per
duplicate, not a single row carrying the last-seen value 2. -/
theorem C4_counterexample_not_last_seen :
    ((compute_results [⟨"A", some 1, ""⟩] (some [⟨"A", some 1⟩, ⟨"A", some 2⟩]) 0).display).map
        DFRow.on_hand = [1, 2]
    ∧ ([1, 2] : List ℚ) ≠ [2] := by
  constructor
  · simp [compute_results_display, sortRows, isortBy, insertLe, keyLe, rowKey, charListLt,
      computeDF, mergeRows, buildRow, List.enum, List.enumFrom, List.filter, List.flatMap]
  · simp

/-- Claim C4 (amended): after the left join, a component whose name has
duplicate on-hand entries yields one joined row per duplicate entry, in
table order, each carrying that entry's (coerced) quantity; a component
with no entry yields a single row with on-hand `0`. -/
theorem C4_amended_row_per_duplicate (comps : List Component) (oh : List OnHandEntry)
    (n : ℚ) (hC : (comps.map Component.name).Nodup) :
    ∀ c ∈ comps,
      ((computeDF comps (some oh) n).filter (fun r => r.name == c.name)).map DFRow.on_hand
        = if oh.filter (fun e => e.name == c.name) = []
          then [0]
          else (oh.filter (fun e => e.name == c.name)).map (fun e => e.on_hand.getD 0) := by
  intro c hc
  rw [computeDF_filter_name comps oh n hC hc]
  by_cases hf : oh.filter (fun e => e.name == c.name) = []
  · rw [if_pos hf, if_pos hf]
    simp [buildRow]
  · rw [if_neg hf, if_neg hf]
    simp only [List.map_map]
    rfl

/-- Witness for C4 (amended) at a concrete input. -/
theorem C4_w :
    ((computeDF [⟨"A", some 1, ""⟩] (some [⟨"A", some 7⟩]) 0).filter
        (fun r => r.name == (⟨"A", some 1, ""⟩ : Component).name)).map DFRow.on_hand
      = if ([⟨"A", some 7⟩] : List OnHandEntry).filter
            (fun e => e.name == (⟨"A", some 1, ""⟩ : Component).name) = []
        then [0]
        else (([⟨"A", some 7⟩] : List OnHandEntry).filter
            (fun e => e.name == (⟨"A", some 1, ""⟩ : Component).name)).map
            (fun e => e.on_hand.getD 0) :=
  C4_amended_row_per_duplicate _ _ 0 (by decide) _ (by decide)



theorem zeroNanComponent_name (c : ComponentE) : (zeroNanComponent c).name = c.name := rfl

theorem zeroNanEntry_name (e : OnHandEntryE) : (zeroNanEntry e).name = e.name := rfl

theorem coerceFill_zeroNanCell (c : Cell) : coerceFill (zeroNanCell c) = coerceFill c := by
  cases c with
  | num v => cases v <;> rfl
  | strNum v => cases v <;> rfl
  | strBad => rfl
  | blank => rfl

theorem buildRowE_zeroNan (cases_sold : ℚ) (c : ComponentE) (v : Option Cell) :
    buildRowE cases_sold (zeroNanComponent c, v.map zeroNanCell)
      = buildRowE cases_sold (c, v) := by
  cases v with
  | none =>
      simp [buildRowE, zeroNanComponent, coerceFill_zeroNanCell, coerceFillOpt]
  | some cell =>
      simp [buildRowE, zeroNanComponent, coerceFill_zeroNanCell, coerceFillOpt]

theorem mergeRowsE_zeroNan (comps : List ComponentE) (oh : Option (List OnHandEntryE)) :
    mergeRowsE (comps.map zeroNanComponent) (oh.map (List.map zeroNanEntry))
      = (mergeRowsE comps oh).map (fun p => (zeroNanComponent p.1, p.2.map zeroNanCell)) := by
  cases oh with
  | none =>
      simp only [Option.map_none', mergeRowsE, List.map_map]
      apply List.map_congr_left
      intro c _
      simp [zeroNanCell, toNumericCoerce]
  | some l =>
      simp only [Option.map_some', mergeRowsE]
      induction comps with
      | nil => rfl
      | cons c t ih =>
          simp only [List.map_cons, List.flatMap_cons, List.map_append]
          rw [ih]
          congr 1
          have hpred : (fun e => e.name == (zeroNanComponent c).name) ∘ zeroNanEntry
              = (fun e => e.name == c.name) := by
            funext e
            rfl
          rw [List.filter_map, hpred]
          cases hf : l.filter (fun e => e.name == c.name) with
          | nil => rfl
          | cons e t' =>
              simp only [List.map_cons, List.map_map]
              rfl

/-- Claim C5 (amended): every cell whose numeric coercion yields NaN
(non-numeric strings, blanks, NaN values) is treated as `0` throughout
the element-wise stage and no error is surfaced: replacing every such
cell by a literal `0` does not change the computed rows.  Cells coercing
to `±∞` (e.g. the string "inf") are kept, not zeroed — see the
counterexample. -/
theorem C5_amended_nan_zeroed (comps : List ComponentE) (oh : Option (List OnHandEntryE))
    (cases_sold : ℚ) :
    computeRowsE (comps.map zeroNanComponent) (oh.map (List.map zeroNanEntry)) cases_sold
      = computeRowsE comps oh cases_sold := by
  unfold computeRowsE
  rw [mergeRowsE_zeroNan, List.map_map]
  apply List.map_congr_left
  intro p _
  exact buildRowE_zeroNan cases_sold p.1 p.2

/-- Counterexample to claim C5 as stated: a `Per_Case` cell that coerces
to a non-finite value (`+∞`, e.g. the string "inf") is not replaced by
`0` — `fillna(0.0)` replaces only NaN — so `Required` becomes `+∞`
rather than `0`. -/
theorem C5_counterexample_inf_not_zeroed :
    (computeRowsE [⟨"A", Cell.strNum Num.pinf, ""⟩]
        (some [⟨"A", Cell.num (Num.fin 5)⟩]) 1).map DFRowE.required = [Num.pinf]
    ∧ Num.pinf ≠ Num.fin 0 := by
  constructor
  · simp [computeRowsE, mergeRowsE, buildRowE, coerceFill, coerceFillOpt, toNumericCoerce,
      fillna0, Num.mulFin, List.filter, List.flatMap]
  · simp


end Shotcraft
